import Mathlib

/-!
Verification of the sampling-based compression-size estimator
(`src/python/zip-sizer.py` and `src/estimate-compression.py`).

The shallow embedding models a file by its byte contents (a `List ℕ`) plus a
flag `err` meaning that opening/reading the file raises one of the recoverable
exceptions caught by `sample_data` (FileNotFoundError, PermissionError,
IsADirectoryError, IOError, OSError, TypeError); all of those handlers execute
`continue`, so they are modelled uniformly as "the whole `try` block aborts
having contributed nothing".  The file's size as recorded in the inventory is
`data.length` (contents unchanged between inventory and sampling).  Python
floats are modelled by exact rationals `ℚ`; Python's `/`, which raises
`ZeroDivisionError` on a zero denominator, is modelled by an `Option ℚ`
returning `none` exactly when the real program raises.
-/

namespace ZipSizer

/-- `CHUNKSIZE = 10 * 1024 * 1024` from `zip-sizer.py` line 18 (also the
default `chunk_size` of `estimate-compression.py`). -/
def CHUNKSIZE : ℕ := 10 * 1024 * 1024

/-- Python's `int()` applied to a (rational-valued) float: truncation toward
zero. -/
def pyInt (q : ℚ) : ℤ :=
  if 0 ≤ q then ⌊q⌋ else ⌈q⌉

/-- `sample_size = int(args.sampling_ratio * CHUNKSIZE)` (`zip-sizer.py`
line 63), with the float value of `args.sampling_ratio` modelled as an exact
rational. -/
def sample_size_of (r : ℚ) : ℤ :=
  pyInt (r * (CHUNKSIZE : ℚ))

/-- Python's `range(start, stop, step)` for a positive `step` and natural
bounds, as a list. -/
def pyRange (start stop step : ℕ) : List ℕ :=
  List.range' start ((stop - start + step - 1) / step) step

/-- One entry of the sampler's input: the file's byte contents and whether
reading it raises a recoverable error.  The inventory size of the file is
`data.length`; the path only serves to open the file and is not modelled. -/
structure FileEntry where
  data : List ℕ
  err : Bool
deriving DecidableEq

/-- `total_size = sum(size for _, size in files_with_sizes)`
(`zip-sizer.py` line 56, also `original_size` on line 148). -/
def totalSize (files : List FileEntry) : ℕ :=
  (files.map (fun f => f.data.length)).sum

/-- `sampling_points = list(range(CHUNKSIZE - sample_size, total_size, CHUNKSIZE))`
(`zip-sizer.py` line 70), generalized over the chunk and sample sizes exactly
as in `estimate-compression.py` line 26.  The subtraction is on `ℕ`; the
program guarantees `sample_size ≤ chunk_size` (sampling ratio validated in
`(0, 1]`). -/
def samplingPoints (chunk sampleSz total : ℕ) : List ℕ :=
  pyRange (chunk - sampleSz) total chunk

/-- Instrumentation record for one consumed sampling point: which file (by
position `idx` in the inventory) consumed it, the value of `current_offset`
and of `filesize` at consumption time, and the bytes appended to the sample
buffer. -/
structure SampleRec where
  idx : ℕ
  point : ℕ
  fileStart : ℕ
  fileLen : ℕ
  bytes : List ℕ
deriving DecidableEq

/-- The inner `while` loop of `sample_data` (`zip-sizer.py` lines 83-90):
while there are sampling points and `current_offset + filesize >
sampling_points[0]`, seek to `sampling_points[0] - current_offset`, read up to
`sample_size` bytes, and pop the point.  Returns the list of
`(point, bytes read)` pairs in consumption order together with the remaining
sampling points. -/
def fileWindows (data : List ℕ) (off sampleSz : ℕ) :
    List ℕ → List (ℕ × List ℕ) × List ℕ
  | [] => ([], [])
  | p :: rest =>
    if p < off + data.length then
      let pr := fileWindows data off sampleSz rest
      ((p, (data.drop (p - off)).take sampleSz) :: pr.1, pr.2)
    else ([], p :: rest)

/-- The outer `for` loop of `sample_data` (`zip-sizer.py` lines 73-114),
instrumented with `SampleRec`s.  Arguments: sample size, remaining files,
remaining sampling points, `current_offset`, and the inventory index of the
head file.  Branches, in the source's order:
* `if not sampling_points or sampling_points[0] >= current_offset + filesize`:
  advance `current_offset` and `continue`;
* otherwise open the file; if that raises (modelled by `f.err = true`) the
  `except ...: continue` handlers skip the rest of the `try` block — in
  particular the `current_offset += filesize` on line 92, which sits inside
  the `try`, is NOT executed;
* otherwise run the inner `while` loop and then `current_offset += filesize`.
Returns the consumption records and the sampling points still unconsumed at
the end of the walk. -/
def sampleWalk (sampleSz : ℕ) :
    List FileEntry → List ℕ → ℕ → ℕ → List SampleRec × List ℕ
  | [], pts, _, _ => ([], pts)
  | f :: rest, [], off, i => sampleWalk sampleSz rest [] (off + f.data.length) (i + 1)
  | f :: rest, p :: ps, off, i =>
    if off + f.data.length ≤ p then
      sampleWalk sampleSz rest (p :: ps) (off + f.data.length) (i + 1)
    else if f.err then
      sampleWalk sampleSz rest (p :: ps) off (i + 1)
    else
      let pr := fileWindows f.data off sampleSz (p :: ps)
      let res := sampleWalk sampleSz rest pr.2 (off + f.data.length) (i + 1)
      (pr.1.map (fun w => ⟨i, w.1, off, f.data.length, w.2⟩) ++ res.1, res.2)

/-- The consumption records of a full `sample_data` run of `zip-sizer.py`
(`current_offset` starts at 0, all sampling points pending). -/
def sample_recs (files : List FileEntry) (chunk sampleSz : ℕ) : List SampleRec :=
  (sampleWalk sampleSz files (samplingPoints chunk sampleSz (totalSize files)) 0 0).1

/-- The sampling points left unconsumed at the end of a full `sample_data`
run. -/
def sample_leftover (files : List FileEntry) (chunk sampleSz : ℕ) : List ℕ :=
  (sampleWalk sampleSz files (samplingPoints chunk sampleSz (totalSize files)) 0 0).2

/-- The `sampled_data` buffer returned by `sample_data` of `zip-sizer.py`:
the concatenation, in consumption order, of all bytes read. -/
def sample_data (files : List FileEntry) (chunk sampleSz : ℕ) : List ℕ :=
  ((sample_recs files chunk sampleSz).map (fun r => r.bytes)).flatten

/-- The virtual offset at which file number `k` of the inventory starts: the
sum of the sizes of the files before it.  (In an error-free run this is the
value of `current_offset` when the walk reaches file `k`.) -/
def prefixSize (files : List FileEntry) (k : ℕ) : ℕ :=
  ((files.take k).map (fun f => f.data.length)).sum

/-- The inventory size of file number `k` (0 when `k` is out of range). -/
def sizeAt (files : List FileEntry) (k : ℕ) : ℕ :=
  (files.map (fun f => f.data.length)).getD k 0

/-- Python's true division `a / b`, which raises `ZeroDivisionError` when
`b == 0`: modelled as `none` in that case. -/
def pyDivQ (a b : ℚ) : Option ℚ :=
  if b = 0 then none else some (a / b)

/-- Step 4 of `main` (`zip-sizer.py` lines 149-153):
`(float(compressed_size) / len(sampled_data)) * original_size if
original_size > 0 else 0`.  `none` models an uncaught `ZeroDivisionError`. -/
def estimated_size (compressedLen sampleLen original : ℕ) : Option ℚ :=
  if 0 < original then (pyDivQ (compressedLen : ℚ) (sampleLen : ℚ)).map (fun q => q * (original : ℚ))
  else some (0 : ℚ)

/-- The ratio printed on `zip-sizer.py` line 165:
`original_size / compressed_size`, where `compressed_size` holds the
estimated total at that point.  `none` models an uncaught
`ZeroDivisionError`. -/
def compression_ratio (original : ℕ) (est : ℚ) : Option ℚ :=
  pyDivQ (original : ℚ) est

/-- Everything `main` computes after the inventory, plus the diagnostic lines
whose printing is guarded by `args.verbose` (modelled by constant labels in
source order: three in `sample_data` lines 57-65, two in
`compress_sampled_data` lines 127-133). -/
structure RunOut where
  sample : List ℕ
  clen : ℕ
  orig : ℕ
  estimate : Option ℚ
  ratio_rep : Option ℚ
  diag : List String

/-- The `zip-sizer.py` pipeline from a materialized inventory onward:
`sample_data`, `compress_sampled_data` (the compressor itself is the stdlib
`gzip`/`bz2` library, abstracted as the function `compress` from buffer to
compressed length), then Step 4 and the two reported quantities of Step 5.
`verbose` only selects the diagnostic lines. -/
def zs_run (verbose : Bool) (r : ℚ) (compress : List ℕ → ℕ)
    (files : List FileEntry) : RunOut :=
  let total := totalSize files
  let sampleSz := (sample_size_of r).toNat
  let diag1 : List String :=
    if verbose then ["file count", "total size", "sample size"] else []
  let buf := sample_data files CHUNKSIZE sampleSz
  let clen := compress buf
  let diag2 : List String :=
    if verbose then ["compressed sample size", "original sample size"] else []
  let est := estimated_size clen buf.length total
  let rr := est.bind (fun e => compression_ratio total e)
  ⟨buf, clen, total, est, rr, diag1 ++ diag2⟩

/-!  Embedding of `sample_data` from `src/estimate-compression.py`
(lines 18-47).  Structurally the same loops, but: files carry no error flag
(there is no `try`/`except`; the claim under study restricts to error-free
runs), `current_offset += filesize` is outside the `with` block, and
`chunk_size`/`sample_size` are explicit parameters with defaults
`10 * 1024 * 1024` and `1 * 1024 * 1024`. -/

/-- Inner `while` loop of `estimate-compression.py` (lines 38-43): returns
the bytes appended to `sampled_data` and the remaining sampling points. -/
def ecFileWindows (data : List ℕ) (off sampleSz : ℕ) :
    List ℕ → List ℕ × List ℕ
  | [] => ([], [])
  | p :: rest =>
    if p < off + data.length then
      let pr := ecFileWindows data off sampleSz rest
      ((data.drop (p - off)).take sampleSz ++ pr.1, pr.2)
    else ([], p :: rest)

/-- Outer `for` loop of `estimate-compression.py` (lines 30-45). -/
def ecWalk (sampleSz : ℕ) : List (List ℕ) → List ℕ → ℕ → List ℕ
  | [], _, _ => []
  | data :: rest, [], off => ecWalk sampleSz rest [] (off + data.length)
  | data :: rest, p :: ps, off =>
    if off + data.length ≤ p then
      ecWalk sampleSz rest (p :: ps) (off + data.length)
    else
      let pr := ecFileWindows data off sampleSz (p :: ps)
      pr.1 ++ ecWalk sampleSz rest pr.2 (off + data.length)

/-- `sample_data(files_with_sizes, chunk_size, sample_size)` of
`estimate-compression.py`. -/
def ec_sample_data (datas : List (List ℕ)) (chunk sampleSz : ℕ) : List ℕ :=
  ecWalk sampleSz datas
    (pyRange (chunk - sampleSz) ((datas.map List.length).sum) chunk) 0

/-! ### Basic facts about `pyRange` and `List.range'` -/

theorem pairwise_range' (step : ℕ) :
    ∀ (n s : ℕ), (List.range' s n step).Pairwise (fun a b => a + step ≤ b)
  | 0, _ => List.Pairwise.nil
  | n + 1, s => by
    rw [List.range'_succ]
    refine List.Pairwise.cons ?_ (pairwise_range' step n (s + step))
    intro b hb
    rcases List.mem_range'.1 hb with ⟨i, _, rfl⟩
    omega

theorem pyRange_pairwise (start stop step : ℕ) :
    (pyRange start stop step).Pairwise (fun a b => a + step ≤ b) :=
  pairwise_range' step _ start

theorem pyRange_mem_lt {start stop step p : ℕ} (hstep : 0 < step)
    (hp : p ∈ pyRange start stop step) : p < stop := by
  rcases List.mem_range'.1 hp with ⟨i, hi, rfl⟩
  have h1 : step * i + step ≤ stop - start + step - 1 := by
    rw [← Nat.mul_succ]
    exact le_trans (Nat.mul_le_mul_left step hi) (Nat.mul_div_le _ _)
  omega

theorem pyRange_eq_nil {start stop step : ℕ} (h : stop ≤ start) :
    pyRange start stop step = [] := by
  unfold pyRange
  have : stop - start = 0 := Nat.sub_eq_zero_of_le h
  rw [this]
  rcases Nat.eq_zero_or_pos step with h0 | h0
  · subst h0; rfl
  · have : (0 + step - 1) / step = 0 := Nat.div_eq_of_lt (by omega)
    rw [this, List.range']

/-! ### Basic facts about the inner window loop `fileWindows` -/

theorem fileWindows_split (data : List ℕ) (off sampleSz : ℕ) :
    ∀ pts : List ℕ,
      ((fileWindows data off sampleSz pts).1.map Prod.fst)
        ++ (fileWindows data off sampleSz pts).2 = pts
  | [] => rfl
  | p :: rest => by
    by_cases h : p < off + data.length
    · simp only [fileWindows, if_pos h, List.map_cons, List.cons_append]
      exact congrArg (p :: ·) (fileWindows_split data off sampleSz rest)
    · simp [fileWindows, if_neg h]

theorem fileWindows_suffix (data : List ℕ) (off sampleSz : ℕ) :
    ∀ pts : List ℕ, (fileWindows data off sampleSz pts).2 <:+ pts
  | [] => List.nil_suffix
  | p :: rest => by
    by_cases h : p < off + data.length
    · simp only [fileWindows, if_pos h]
      exact (fileWindows_suffix data off sampleSz rest).trans (List.suffix_cons p rest)
    · simp [fileWindows, if_neg h]

theorem fileWindows_count (data : List ℕ) (off sampleSz : ℕ) :
    ∀ pts : List ℕ,
      (fileWindows data off sampleSz pts).1.length
        + (fileWindows data off sampleSz pts).2.length = pts.length
  | [] => rfl
  | p :: rest => by
    by_cases h : p < off + data.length
    · simp only [fileWindows, if_pos h, List.length_cons]
      have := fileWindows_count data off sampleSz rest
      omega
    · simp [fileWindows, if_neg h]

theorem fileWindows_bytes_le (data : List ℕ) (off sampleSz : ℕ) :
    ∀ pts : List ℕ, ∀ w ∈ (fileWindows data off sampleSz pts).1,
      w.2.length ≤ sampleSz
  | [] => by intro w hw; simp [fileWindows] at hw
  | p :: rest => by
    intro w hw
    by_cases h : p < off + data.length
    · simp only [fileWindows, if_pos h, List.mem_cons] at hw
      rcases hw with rfl | hw
      · exact List.length_take_le _ _
      · exact fileWindows_bytes_le data off sampleSz rest w hw
    · simp [fileWindows, if_neg h] at hw

theorem fileWindows_consumed_mem (data : List ℕ) (off sampleSz : ℕ) :
    ∀ pts : List ℕ, ∀ w ∈ (fileWindows data off sampleSz pts).1, w.1 ∈ pts
  | [] => by intro w hw; simp [fileWindows] at hw
  | p :: rest => by
    intro w hw
    by_cases h : p < off + data.length
    · simp only [fileWindows, if_pos h, List.mem_cons] at hw
      rcases hw with rfl | hw
      · exact List.mem_cons_self _ _
      · exact List.mem_cons_of_mem _ (fileWindows_consumed_mem data off sampleSz rest w hw)
    · simp [fileWindows, if_neg h] at hw

theorem fileWindows_consumed_lt (data : List ℕ) (off sampleSz : ℕ) :
    ∀ pts : List ℕ, ∀ w ∈ (fileWindows data off sampleSz pts).1,
      w.1 < off + data.length
  | [] => by intro w hw; simp [fileWindows] at hw
  | p :: rest => by
    intro w hw
    by_cases h : p < off + data.length
    · simp only [fileWindows, if_pos h, List.mem_cons] at hw
      rcases hw with rfl | hw
      · exact h
      · exact fileWindows_consumed_lt data off sampleSz rest w hw
    · simp [fileWindows, if_neg h] at hw

theorem fileWindows_rem_lb (data : List ℕ) (off sampleSz : ℕ) :
    ∀ pts : List ℕ, pts.Pairwise (· < ·) →
      ∀ q ∈ (fileWindows data off sampleSz pts).2, off + data.length ≤ q
  | [] => by intro _ q hq; simp [fileWindows] at hq
  | p :: rest => by
    intro hsort q hq
    by_cases h : p < off + data.length
    · simp only [fileWindows, if_pos h] at hq
      exact fileWindows_rem_lb data off sampleSz rest hsort.of_cons q hq
    · simp only [fileWindows, if_neg h] at hq
      rcases List.mem_cons.1 hq with rfl | hq
      · omega
      · have := List.rel_of_pairwise_cons hsort hq
        omega

/-- Core disjointness bound: with sampling points pairwise at least `chunk`
apart, all at least `q ≥ off`, and reads of at most `sampleSz ≤ chunk` bytes,
the windows consumed inside one file read at most
`data.length - (q - off)` bytes in total. -/
theorem fileWindows_sum_le (data : List ℕ) (off sampleSz chunk : ℕ)
    (hs : sampleSz ≤ chunk) :
    ∀ (pts : List ℕ) (q : ℕ), pts.Pairwise (fun a b => a + chunk ≤ b) →
      (∀ x ∈ pts, q ≤ x) → off ≤ q →
      ((fileWindows data off sampleSz pts).1.map (fun w => w.2.length)).sum
        ≤ data.length - (q - off)
  | [], q, _, _, _ => by simp [fileWindows]
  | p :: rest, q, hsort, hlb, hoff => by
    by_cases h : p < off + data.length
    · simp only [fileWindows, if_pos h, List.map_cons, List.sum_cons]
      have hc1 : ((data.drop (p - off)).take sampleSz).length ≤ sampleSz :=
        List.length_take_le _ _
      have hc2 : ((data.drop (p - off)).take sampleSz).length
          ≤ data.length - (p - off) := by
        calc ((data.drop (p - off)).take sampleSz).length
            ≤ (data.drop (p - off)).length := List.length_take_le' _ _
        _ = data.length - (p - off) := List.length_drop _ _
      have hrest := fileWindows_sum_le data off sampleSz chunk hs rest (p + chunk)
        hsort.of_cons
        (fun x hx => List.rel_of_pairwise_cons hsort hx)
        (by have := hlb p (List.mem_cons_self p rest); omega)
      have hqp : q ≤ p := hlb p (List.mem_cons_self p rest)
      omega
    · simp [fileWindows, if_neg h]

/-! ### Walk-level invariants of `sampleWalk` -/

theorem sampleWalk_rem_suffix (sampleSz : ℕ) :
    ∀ (files : List FileEntry) (pts : List ℕ) (off i : ℕ),
      (sampleWalk sampleSz files pts off i).2 <:+ pts
  | [], pts, _, _ => List.suffix_refl pts
  | f :: rest, [], off, i => by
    simp only [sampleWalk]
    exact sampleWalk_rem_suffix sampleSz rest [] (off + f.data.length) (i + 1)
  | f :: rest, p :: ps, off, i => by
    by_cases h1 : off + f.data.length ≤ p
    · simp only [sampleWalk, if_pos h1]
      exact sampleWalk_rem_suffix sampleSz rest (p :: ps) _ _
    · cases hf : f.err with
      | true =>
        simp only [sampleWalk, if_neg h1, hf, if_pos]
        exact sampleWalk_rem_suffix sampleSz rest (p :: ps) _ _
      | false =>
        simp only [sampleWalk, if_neg h1, hf, Bool.false_eq_true, if_false]
        exact (sampleWalk_rem_suffix sampleSz rest _ _ _).trans
          (fileWindows_suffix f.data off sampleSz (p :: ps))

theorem sampleWalk_idx_lb (sampleSz : ℕ) :
    ∀ (files : List FileEntry) (pts : List ℕ) (off i : ℕ),
      ∀ r ∈ (sampleWalk sampleSz files pts off i).1,
        i ≤ r.idx ∧ r.idx < i + files.length
  | [], pts, _, _ => by intro r hr; simp [sampleWalk] at hr
  | f :: rest, [], off, i => by
    intro r hr
    simp only [sampleWalk] at hr
    have := sampleWalk_idx_lb sampleSz rest [] (off + f.data.length) (i + 1) r hr
    simp only [List.length_cons]
    omega
  | f :: rest, p :: ps, off, i => by
    intro r hr
    simp only [List.length_cons]
    by_cases h1 : off + f.data.length ≤ p
    · simp only [sampleWalk, if_pos h1] at hr
      have := sampleWalk_idx_lb sampleSz rest (p :: ps) _ _ r hr
      omega
    · cases hf : f.err with
      | true =>
        simp only [sampleWalk, if_neg h1, hf, if_pos] at hr
        have := sampleWalk_idx_lb sampleSz rest (p :: ps) _ _ r hr
        omega
      | false =>
        simp only [sampleWalk, if_neg h1, hf, Bool.false_eq_true, if_false,
          List.mem_append, List.mem_map] at hr
        rcases hr with ⟨w, _, rfl⟩ | hr
        · exact ⟨le_refl i, Nat.lt_add_of_pos_right (Nat.succ_pos _)⟩
        · have := sampleWalk_idx_lb sampleSz rest _ _ _ r hr
          omega

theorem sampleWalk_count (sampleSz : ℕ) :
    ∀ (files : List FileEntry) (pts : List ℕ) (off i : ℕ),
      (sampleWalk sampleSz files pts off i).1.length
        + (sampleWalk sampleSz files pts off i).2.length ≤ pts.length
  | [], pts, _, _ => by simp [sampleWalk]
  | f :: rest, [], off, i => by
    simp only [sampleWalk]
    exact sampleWalk_count sampleSz rest [] (off + f.data.length) (i + 1)
  | f :: rest, p :: ps, off, i => by
    by_cases h1 : off + f.data.length ≤ p
    · simp only [sampleWalk, if_pos h1]
      exact sampleWalk_count sampleSz rest (p :: ps) _ _
    · cases hf : f.err with
      | true =>
        simp only [sampleWalk, if_neg h1, hf, if_pos]
        exact sampleWalk_count sampleSz rest (p :: ps) _ _
      | false =>
        simp only [sampleWalk, if_neg h1, hf, Bool.false_eq_true, if_false,
          List.length_append, List.length_map]
        have h2 := sampleWalk_count sampleSz rest
          (fileWindows f.data off sampleSz (p :: ps)).2 (off + f.data.length) (i + 1)
        have h3 := fileWindows_count f.data off sampleSz (p :: ps)
        omega

theorem sampleWalk_bytes_le (sampleSz : ℕ) :
    ∀ (files : List FileEntry) (pts : List ℕ) (off i : ℕ),
      ∀ r ∈ (sampleWalk sampleSz files pts off i).1, r.bytes.length ≤ sampleSz
  | [], pts, _, _ => by intro r hr; simp [sampleWalk] at hr
  | f :: rest, [], off, i => by
    intro r hr
    simp only [sampleWalk] at hr
    exact sampleWalk_bytes_le sampleSz rest [] _ _ r hr
  | f :: rest, p :: ps, off, i => by
    intro r hr
    by_cases h1 : off + f.data.length ≤ p
    · simp only [sampleWalk, if_pos h1] at hr
      exact sampleWalk_bytes_le sampleSz rest (p :: ps) _ _ r hr
    · cases hf : f.err with
      | true =>
        simp only [sampleWalk, if_neg h1, hf, if_pos] at hr
        exact sampleWalk_bytes_le sampleSz rest (p :: ps) _ _ r hr
      | false =>
        simp only [sampleWalk, if_neg h1, hf, Bool.false_eq_true, if_false,
          List.mem_append, List.mem_map] at hr
        rcases hr with ⟨w, hw, rfl⟩ | hr
        · exact fileWindows_bytes_le f.data off sampleSz (p :: ps) w hw
        · exact sampleWalk_bytes_le sampleSz rest _ _ _ r hr

/-- Every consumption record satisfies the containment test of the source's
loop conditions: `current_offset ≤ point < current_offset + filesize` for the
consuming file. -/
theorem sampleWalk_rec_bounds (sampleSz : ℕ) :
    ∀ (files : List FileEntry) (pts : List ℕ) (off i : ℕ),
      pts.Pairwise (· < ·) → (∀ x ∈ pts, off ≤ x) →
      ∀ r ∈ (sampleWalk sampleSz files pts off i).1,
        r.fileStart ≤ r.point ∧ r.point < r.fileStart + r.fileLen
  | [], pts, _, _ => by intro _ _ r hr; simp [sampleWalk] at hr
  | f :: rest, [], off, i => by
    intro _ _ r hr
    simp only [sampleWalk] at hr
    exact sampleWalk_rec_bounds sampleSz rest [] _ _ List.Pairwise.nil (by simp) r hr
  | f :: rest, p :: ps, off, i => by
    intro hsort hlb r hr
    by_cases h1 : off + f.data.length ≤ p
    · simp only [sampleWalk, if_pos h1] at hr
      refine sampleWalk_rec_bounds sampleSz rest (p :: ps) _ _ hsort ?_ r hr
      intro x hx
      rcases List.mem_cons.1 hx with rfl | hx
      · exact h1
      · have := List.rel_of_pairwise_cons hsort hx
        omega
    · cases hf : f.err with
      | true =>
        simp only [sampleWalk, if_neg h1, hf, if_pos] at hr
        exact sampleWalk_rec_bounds sampleSz rest (p :: ps) _ _ hsort hlb r hr
      | false =>
        simp only [sampleWalk, if_neg h1, hf, Bool.false_eq_true, if_false,
          List.mem_append, List.mem_map] at hr
        rcases hr with ⟨w, hw, rfl⟩ | hr
        · refine ⟨hlb w.1 (fileWindows_consumed_mem f.data off sampleSz (p :: ps) w hw), ?_⟩
          exact fileWindows_consumed_lt f.data off sampleSz (p :: ps) w hw
        · refine sampleWalk_rec_bounds sampleSz rest _ _ _
            (List.Pairwise.sublist (fileWindows_suffix f.data off sampleSz (p :: ps)).sublist hsort)
            (fun x hx => fileWindows_rem_lb f.data off sampleSz (p :: ps) hsort x hx) r hr

theorem totalSize_cons (f : FileEntry) (rest : List FileEntry) :
    totalSize (f :: rest) = f.data.length + totalSize rest := by
  simp [totalSize]

theorem prefixSize_zero (files : List FileEntry) : prefixSize files 0 = 0 := rfl

theorem prefixSize_cons_succ (f : FileEntry) (rest : List FileEntry) (k : ℕ) :
    prefixSize (f :: rest) (k + 1) = f.data.length + prefixSize rest k := by
  simp [prefixSize]

theorem sizeAt_cons_zero (f : FileEntry) (rest : List FileEntry) :
    sizeAt (f :: rest) 0 = f.data.length := rfl

theorem sizeAt_cons_succ (f : FileEntry) (rest : List FileEntry) (k : ℕ) :
    sizeAt (f :: rest) (k + 1) = sizeAt rest k := by
  simp [sizeAt]

/-- In an error-free run the consumed sampling points, in consumption order,
are exactly the pending sampling points, provided all pending points lie in
the virtual range `[current_offset, current_offset + remaining total size)`. -/
theorem sampleWalk_map_point (sampleSz : ℕ) :
    ∀ (files : List FileEntry) (pts : List ℕ) (off i : ℕ),
      (∀ f ∈ files, f.err = false) →
      pts.Pairwise (· < ·) → (∀ x ∈ pts, off ≤ x) →
      (∀ x ∈ pts, x < off + totalSize files) →
      (sampleWalk sampleSz files pts off i).1.map (fun r => r.point) = pts
  | [], pts, off, i => by
    intro _ _ hlb hub
    have : pts = [] := by
      cases pts with
      | nil => rfl
      | cons x xs =>
        have h1 := hlb x (List.mem_cons_self x xs)
        have h2 := hub x (List.mem_cons_self x xs)
        simp [totalSize] at h2
        omega
    subst this
    simp [sampleWalk]
  | f :: rest, [], off, i => by
    intro herr _ _ _
    simp only [sampleWalk]
    exact sampleWalk_map_point sampleSz rest [] _ _
      (fun g hg => herr g (List.mem_cons_of_mem f hg))
      List.Pairwise.nil (by simp) (by simp)
  | f :: rest, p :: ps, off, i => by
    intro herr hsort hlb hub
    by_cases h1 : off + f.data.length ≤ p
    · simp only [sampleWalk, if_pos h1]
      refine sampleWalk_map_point sampleSz rest (p :: ps) _ _
        (fun g hg => herr g (List.mem_cons_of_mem f hg)) hsort ?_ ?_
      · intro x hx
        rcases List.mem_cons.1 hx with rfl | hx
        · exact h1
        · have := List.rel_of_pairwise_cons hsort hx
          omega
      · intro x hx
        have := hub x hx
        rw [totalSize_cons] at this
        omega
    · have hf : f.err = false := herr f (List.mem_cons_self f rest)
      simp only [sampleWalk, if_neg h1, hf, Bool.false_eq_true, if_false,
        List.map_append, List.map_map]
      have hrest := sampleWalk_map_point sampleSz rest
        (fileWindows f.data off sampleSz (p :: ps)).2 (off + f.data.length) (i + 1)
        (fun g hg => herr g (List.mem_cons_of_mem f hg))
        (List.Pairwise.sublist (fileWindows_suffix f.data off sampleSz (p :: ps)).sublist hsort)
        (fun x hx => fileWindows_rem_lb f.data off sampleSz (p :: ps) hsort x hx)
        (fun x hx => by
          have hmem : x ∈ p :: ps :=
            (fileWindows_suffix f.data off sampleSz (p :: ps)).sublist.subset hx
          have := hub x hmem
          rw [totalSize_cons] at this
          omega)
      rw [hrest]
      have : ((fun r => r.point) ∘ fun w =>
          (⟨i, w.1, off, f.data.length, w.2⟩ : SampleRec)) = Prod.fst := rfl
      rw [this]
      exact fileWindows_split f.data off sampleSz (p :: ps)

/-- In an error-free run, each record's `fileStart` is the true virtual start
offset of the consuming file (starting offset plus sizes of the files walked
before it) and `fileLen` is that file's inventory size. -/
theorem sampleWalk_rec_loc (sampleSz : ℕ) :
    ∀ (files : List FileEntry) (pts : List ℕ) (off i : ℕ),
      (∀ f ∈ files, f.err = false) →
      ∀ r ∈ (sampleWalk sampleSz files pts off i).1,
        r.fileStart = off + prefixSize files (r.idx - i)
          ∧ r.fileLen = sizeAt files (r.idx - i)
  | [], pts, _, _ => by intro _ r hr; simp [sampleWalk] at hr
  | f :: rest, [], off, i => by
    intro herr r hr
    simp only [sampleWalk] at hr
    have hidx := sampleWalk_idx_lb sampleSz rest [] (off + f.data.length) (i + 1) r hr
    have := sampleWalk_rec_loc sampleSz rest [] (off + f.data.length) (i + 1)
      (fun g hg => herr g (List.mem_cons_of_mem f hg)) r hr
    have hk : r.idx - i = (r.idx - (i + 1)) + 1 := by omega
    rw [hk, prefixSize_cons_succ, sizeAt_cons_succ]
    omega
  | f :: rest, p :: ps, off, i => by
    intro herr r hr
    by_cases h1 : off + f.data.length ≤ p
    · simp only [sampleWalk, if_pos h1] at hr
      have hidx := sampleWalk_idx_lb sampleSz rest (p :: ps) (off + f.data.length) (i + 1) r hr
      have := sampleWalk_rec_loc sampleSz rest (p :: ps) (off + f.data.length) (i + 1)
        (fun g hg => herr g (List.mem_cons_of_mem f hg)) r hr
      have hk : r.idx - i = (r.idx - (i + 1)) + 1 := by omega
      rw [hk, prefixSize_cons_succ, sizeAt_cons_succ]
      omega
    · have hf : f.err = false := herr f (List.mem_cons_self f rest)
      simp only [sampleWalk, if_neg h1, hf, Bool.false_eq_true, if_false,
        List.mem_append, List.mem_map] at hr
      rcases hr with ⟨w, _, rfl⟩ | hr
      · constructor
        · show off = off + prefixSize (f :: rest) (i - i)
          simp [prefixSize]
        · show f.data.length = sizeAt (f :: rest) (i - i)
          simp [sizeAt]
      · have hidx := sampleWalk_idx_lb sampleSz rest
          (fileWindows f.data off sampleSz (p :: ps)).2 (off + f.data.length) (i + 1) r hr
        have := sampleWalk_rec_loc sampleSz rest
          (fileWindows f.data off sampleSz (p :: ps)).2 (off + f.data.length) (i + 1)
          (fun g hg => herr g (List.mem_cons_of_mem f hg)) r hr
        have hk : r.idx - i = (r.idx - (i + 1)) + 1 := by omega
        rw [hk, prefixSize_cons_succ, sizeAt_cons_succ]
        omega

/-- The records of a walk starting at inventory index `i` carry no index
below `j` whenever `j ≤ i`, so filtering for index `j` gives nothing. -/
theorem sampleWalk_filter_lt_nil (sampleSz : ℕ) (files : List FileEntry)
    (pts : List ℕ) (off i j : ℕ) (hj : j < i) :
    (sampleWalk sampleSz files pts off i).1.filter (fun r => r.idx = j) = [] := by
  refine List.filter_eq_nil_iff.2 (fun r hr => ?_)
  have := sampleWalk_idx_lb sampleSz files pts off i r hr
  simp only [decide_eq_true_eq]
  omega

/-- Per-file read bound: the bytes read for the windows assigned to any one
file never exceed that file's inventory size.  Requires the real program's
standing facts that consecutive sampling points are at least `chunk` apart,
all pending points lie at or after `current_offset`, and
`sample_size ≤ chunk_size`. -/
theorem sampleWalk_read_sum (sampleSz chunk : ℕ) (hs : sampleSz ≤ chunk)
    (hc : 0 < chunk) :
    ∀ (files : List FileEntry) (pts : List ℕ) (off i : ℕ),
      pts.Pairwise (fun a b => a + chunk ≤ b) → (∀ x ∈ pts, off ≤ x) →
      ∀ j, (((sampleWalk sampleSz files pts off i).1.filter
              (fun r => r.idx = j)).map (fun r => r.bytes.length)).sum
        ≤ sizeAt files (j - i)
  | [], pts, off, i => by intro _ _ j; simp [sampleWalk]
  | f :: rest, [], off, i => by
    intro _ _ j
    simp only [sampleWalk]
    rcases Nat.lt_trichotomy j i with hj | rfl | hj
    · rw [sampleWalk_filter_lt_nil sampleSz rest [] _ _ j (by omega)]
      simp
    · rw [sampleWalk_filter_lt_nil sampleSz rest [] _ _ j (by omega)]
      simp
    · have := sampleWalk_read_sum sampleSz chunk hs hc rest [] (off + f.data.length)
        (i + 1) List.Pairwise.nil (by simp) j
      have hk : j - i = (j - (i + 1)) + 1 := by omega
      rw [hk, sizeAt_cons_succ]
      exact this
  | f :: rest, p :: ps, off, i => by
    intro hsort hlb j
    have hlt : (p :: ps).Pairwise (· < ·) :=
      hsort.imp (fun h => by omega)
    by_cases h1 : off + f.data.length ≤ p
    · simp only [sampleWalk, if_pos h1]
      have hlb' : ∀ x ∈ p :: ps, off + f.data.length ≤ x := by
        intro x hx
        rcases List.mem_cons.1 hx with rfl | hx
        · exact h1
        · have := List.rel_of_pairwise_cons hsort hx
          omega
      rcases Nat.lt_trichotomy j i with hj | rfl | hj
      · rw [sampleWalk_filter_lt_nil sampleSz rest (p :: ps) _ _ j (by omega)]
        simp
      · rw [sampleWalk_filter_lt_nil sampleSz rest (p :: ps) _ _ j (by omega)]
        simp
      · have := sampleWalk_read_sum sampleSz chunk hs hc rest (p :: ps)
          (off + f.data.length) (i + 1) hsort hlb' j
        have hk : j - i = (j - (i + 1)) + 1 := by omega
        rw [hk, sizeAt_cons_succ]
        exact this
    · cases hf : f.err with
      | true =>
        simp only [sampleWalk, if_neg h1, hf, if_pos]
        rcases Nat.lt_trichotomy j i with hj | rfl | hj
        · rw [sampleWalk_filter_lt_nil sampleSz rest (p :: ps) _ _ j (by omega)]
          simp
        · rw [sampleWalk_filter_lt_nil sampleSz rest (p :: ps) _ _ j (by omega)]
          simp
        · have := sampleWalk_read_sum sampleSz chunk hs hc rest (p :: ps)
            off (i + 1) hsort hlb j
          have hk : j - i = (j - (i + 1)) + 1 := by omega
          rw [hk, sizeAt_cons_succ]
          exact this
      | false =>
        simp only [sampleWalk, if_neg h1, hf, Bool.false_eq_true, if_false,
          List.filter_append]
        have hrem_pair : (fileWindows f.data off sampleSz (p :: ps)).2.Pairwise
            (fun a b => a + chunk ≤ b) :=
          List.Pairwise.sublist (fileWindows_suffix f.data off sampleSz (p :: ps)).sublist hsort
        have hrem_lb : ∀ x ∈ (fileWindows f.data off sampleSz (p :: ps)).2,
            off + f.data.length ≤ x :=
          fun x hx => fileWindows_rem_lb f.data off sampleSz (p :: ps) hlt x hx
        rcases Nat.lt_trichotomy j i with hj | rfl | hj
        · rw [sampleWalk_filter_lt_nil sampleSz rest _ _ _ j (by omega)]
          have hnil : ((fileWindows f.data off sampleSz (p :: ps)).1.map
              (fun w => (⟨i, w.1, off, f.data.length, w.2⟩ : SampleRec))).filter
                (fun r => r.idx = j) = [] := by
            refine List.filter_eq_nil_iff.2 (fun r hr => ?_)
            rcases List.mem_map.1 hr with ⟨w, _, rfl⟩
            simp only [decide_eq_true_eq]
            omega
          rw [hnil]
          simp
        · rw [sampleWalk_filter_lt_nil sampleSz rest _ _ _ j (by omega)]
          have hall : ((fileWindows f.data off sampleSz (p :: ps)).1.map
              (fun w => (⟨j, w.1, off, f.data.length, w.2⟩ : SampleRec))).filter
                (fun r => r.idx = j)
              = (fileWindows f.data off sampleSz (p :: ps)).1.map
                (fun w => (⟨j, w.1, off, f.data.length, w.2⟩ : SampleRec)) := by
            refine List.filter_eq_self.2 (fun r hr => ?_)
            rcases List.mem_map.1 hr with ⟨w, _, rfl⟩
            simp
          rw [hall]
          simp only [Nat.sub_self, sizeAt_cons_zero, List.append_nil,
            List.map_map]
          have := fileWindows_sum_le f.data off sampleSz chunk hs (p :: ps) off
            hsort hlb (le_refl off)
          simpa using this
        · have hnil : ((fileWindows f.data off sampleSz (p :: ps)).1.map
              (fun w => (⟨i, w.1, off, f.data.length, w.2⟩ : SampleRec))).filter
                (fun r => r.idx = j) = [] := by
            refine List.filter_eq_nil_iff.2 (fun r hr => ?_)
            rcases List.mem_map.1 hr with ⟨w, _, rfl⟩
            simp only [decide_eq_true_eq]
            omega
          rw [hnil]
          have := sampleWalk_read_sum sampleSz chunk hs hc rest
            (fileWindows f.data off sampleSz (p :: ps)).2 (off + f.data.length)
            (i + 1) hrem_pair hrem_lb j
          have hk : j - i = (j - (i + 1)) + 1 := by omega
          rw [hk, sizeAt_cons_succ]
          simpa using this

theorem list_sum_le (n : ℕ) : ∀ l : List ℕ, (∀ x ∈ l, x ≤ n) → l.sum ≤ n * l.length
  | [] => by simp
  | x :: xs => by
    intro h
    simp only [List.sum_cons, List.length_cons]
    have h1 := h x (List.mem_cons_self x xs)
    have h2 := list_sum_le n xs (fun y hy => h y (List.mem_cons_of_mem x hy))
    have h3 : n * (xs.length + 1) = n * xs.length + n := by ring
    omega

/-! ### Equivalence of the two implementations of the sampling loop -/

theorem ecFileWindows_eq (data : List ℕ) (off sampleSz : ℕ) :
    ∀ pts : List ℕ,
      ecFileWindows data off sampleSz pts
        = (((fileWindows data off sampleSz pts).1.map (fun w => w.2)).flatten,
           (fileWindows data off sampleSz pts).2)
  | [] => rfl
  | p :: rest => by
    by_cases h : p < off + data.length
    · simp only [ecFileWindows, fileWindows, if_pos h,
        ecFileWindows_eq data off sampleSz rest, List.map_cons, List.flatten_cons]
    · simp [ecFileWindows, fileWindows, if_neg h]

theorem ecWalk_eq (sampleSz : ℕ) :
    ∀ (datas : List (List ℕ)) (pts : List ℕ) (off i : ℕ),
      ecWalk sampleSz datas pts off
        = ((sampleWalk sampleSz (datas.map (fun d => ⟨d, false⟩)) pts off i).1.map
            (fun r => r.bytes)).flatten
  | [], pts, off, i => by simp [ecWalk, sampleWalk]
  | d :: rest, [], off, i => by
    simp only [List.map_cons, ecWalk, sampleWalk]
    exact ecWalk_eq sampleSz rest [] (off + d.length) (i + 1)
  | d :: rest, p :: ps, off, i => by
    simp only [List.map_cons]
    by_cases h1 : off + d.length ≤ p
    · simp only [ecWalk, sampleWalk, if_pos h1]
      exact ecWalk_eq sampleSz rest (p :: ps) (off + d.length) (i + 1)
    · have hec := ecFileWindows_eq d off sampleSz (p :: ps)
      simp only [ecWalk, sampleWalk, if_neg h1, Bool.false_eq_true, if_false,
        List.map_append, List.flatten_append, List.map_map, hec]
      rw [ecWalk_eq sampleSz rest (fileWindows d off sampleSz (p :: ps)).2
        (off + d.length) (i + 1)]
      rfl

/-! ### Single-step unfolding lemmas, used to evaluate concrete runs -/

theorem fileWindows_nil (data : List ℕ) (off s : ℕ) :
    fileWindows data off s [] = ([], []) := rfl

theorem fileWindows_cons_take {data : List ℕ} {off s p : ℕ} {rest : List ℕ}
    (h : p < off + data.length) :
    fileWindows data off s (p :: rest)
      = ((p, (data.drop (p - off)).take s) :: (fileWindows data off s rest).1,
         (fileWindows data off s rest).2) := by
  simp only [fileWindows, if_pos h]

theorem fileWindows_cons_stop {data : List ℕ} {off s p : ℕ} {rest : List ℕ}
    (h : ¬ p < off + data.length) :
    fileWindows data off s (p :: rest) = ([], p :: rest) := by
  simp only [fileWindows, if_neg h]

theorem sampleWalk_nil (s : ℕ) (pts : List ℕ) (off i : ℕ) :
    sampleWalk s [] pts off i = ([], pts) := rfl

theorem sampleWalk_cons_skip {s : ℕ} {f : FileEntry} {rest : List FileEntry}
    {p : ℕ} {ps : List ℕ} {off i : ℕ} (h : off + f.data.length ≤ p) :
    sampleWalk s (f :: rest) (p :: ps) off i
      = sampleWalk s rest (p :: ps) (off + f.data.length) (i + 1) := by
  simp only [sampleWalk, if_pos h]

theorem sampleWalk_cons_err {s : ℕ} {f : FileEntry} {rest : List FileEntry}
    {p : ℕ} {ps : List ℕ} {off i : ℕ} (h : ¬ off + f.data.length ≤ p)
    (he : f.err = true) :
    sampleWalk s (f :: rest) (p :: ps) off i
      = sampleWalk s rest (p :: ps) off (i + 1) := by
  simp only [sampleWalk, if_neg h, he, if_true]

theorem sampleWalk_cons_open {s : ℕ} {f : FileEntry} {rest : List FileEntry}
    {p : ℕ} {ps : List ℕ} {off i : ℕ} (h : ¬ off + f.data.length ≤ p)
    (he : f.err = false) :
    sampleWalk s (f :: rest) (p :: ps) off i
      = (((fileWindows f.data off s (p :: ps)).1.map
            (fun w => ⟨i, w.1, off, f.data.length, w.2⟩))
          ++ (sampleWalk s rest (fileWindows f.data off s (p :: ps)).2
              (off + f.data.length) (i + 1)).1,
         (sampleWalk s rest (fileWindows f.data off s (p :: ps)).2
            (off + f.data.length) (i + 1)).2) := by
  simp only [sampleWalk, if_neg h, he, Bool.false_eq_true, if_false]

theorem sampleWalk_mk_skip {s : ℕ} {d : List ℕ} {e : Bool} {rest : List FileEntry}
    {p : ℕ} {ps : List ℕ} {off i : ℕ} (h : off + d.length ≤ p) :
    sampleWalk s (⟨d, e⟩ :: rest) (p :: ps) off i
      = sampleWalk s rest (p :: ps) (off + d.length) (i + 1) :=
  sampleWalk_cons_skip h

theorem sampleWalk_mk_err {s : ℕ} {d : List ℕ} {rest : List FileEntry}
    {p : ℕ} {ps : List ℕ} {off i : ℕ} (h : ¬ off + d.length ≤ p) :
    sampleWalk s (⟨d, true⟩ :: rest) (p :: ps) off i
      = sampleWalk s rest (p :: ps) off (i + 1) :=
  sampleWalk_cons_err h rfl

theorem sampleWalk_mk_open {s : ℕ} {d : List ℕ} {rest : List FileEntry}
    {p : ℕ} {ps : List ℕ} {off i : ℕ} (h : ¬ off + d.length ≤ p) :
    sampleWalk s (⟨d, false⟩ :: rest) (p :: ps) off i
      = (((fileWindows d off s (p :: ps)).1.map
            (fun w => ⟨i, w.1, off, d.length, w.2⟩))
          ++ (sampleWalk s rest (fileWindows d off s (p :: ps)).2
              (off + d.length) (i + 1)).1,
         (sampleWalk s rest (fileWindows d off s (p :: ps)).2
            (off + d.length) (i + 1)).2) :=
  sampleWalk_cons_open h rfl

theorem sample_recs_def (files : List FileEntry) (chunk sampleSz : ℕ) :
    sample_recs files chunk sampleSz
      = (sampleWalk sampleSz files
          (samplingPoints chunk sampleSz (totalSize files)) 0 0).1 := rfl

theorem sample_leftover_def (files : List FileEntry) (chunk sampleSz : ℕ) :
    sample_leftover files chunk sampleSz
      = (sampleWalk sampleSz files
          (samplingPoints chunk sampleSz (totalSize files)) 0 0).2 := rfl

theorem sample_data_def (files : List FileEntry) (chunk sampleSz : ℕ) :
    sample_data files chunk sampleSz
      = ((sample_recs files chunk sampleSz).map (fun r => r.bytes)).flatten := rfl

/-- At the default sampling ratio `0.1` the computed sample size is
`int(0.1 * CHUNKSIZE) = 1048576` (both for the exact rational 1/10 and for
the IEEE-754 double nearest 0.1, whose product with `CHUNKSIZE` rounds to
exactly 2^20). -/
theorem sample_size_of_default : sample_size_of (1 / 10) = 1048576 := by
  unfold sample_size_of pyInt
  have hprod : (1 / 10 : ℚ) * (CHUNKSIZE : ℚ) = 1048576 := by
    norm_num [CHUNKSIZE]
  rw [hprod, if_pos (by norm_num : (0 : ℚ) ≤ 1048576)]
  rw [Int.floor_eq_iff]
  norm_num

/-! ### Claim theorems -/

/-- C1: for an inventory of total size 0 the sampling-point sequence is
empty, the sample buffer is empty, and the reported estimated compressed
size is 0 — but the final ratio print performs `0 / 0`, i.e. the run DOES
raise an uncaught `ZeroDivisionError` (modelled by `ratio_rep = none`),
contrary to the claim's "without raising a division fault". -/
theorem claim_C1_zero_total (v : Bool) (r : ℚ) (compress : List ℕ → ℕ)
    (files : List FileEntry) (h0 : totalSize files = 0) :
    samplingPoints CHUNKSIZE (sample_size_of r).toNat (totalSize files) = [] ∧
      (zs_run v r compress files).sample = [] ∧
      (zs_run v r compress files).estimate = some 0 ∧
      (zs_run v r compress files).ratio_rep = none := by
  have hpts : samplingPoints CHUNKSIZE (sample_size_of r).toNat (totalSize files) = [] := by
    rw [h0]
    exact pyRange_eq_nil (Nat.zero_le _)
  have hrecs : sample_recs files CHUNKSIZE (sample_size_of r).toNat = [] := by
    unfold sample_recs
    rw [hpts]
    have hcount := sampleWalk_count (sample_size_of r).toNat files [] 0 0
    simp only [List.length_nil, Nat.le_zero] at hcount
    exact List.length_eq_zero.1 (by omega)
  have hbuf : sample_data files CHUNKSIZE (sample_size_of r).toNat = [] := by
    unfold sample_data
    rw [hrecs]
    rfl
  refine ⟨hpts, hbuf, ?_, ?_⟩
  · show estimated_size _ _ (totalSize files) = some 0
    rw [h0, hbuf]
    simp [estimated_size]
  · show (estimated_size _ _ (totalSize files)).bind
        (fun e => compression_ratio (totalSize files) e) = none
    rw [h0, hbuf]
    simp [estimated_size, compression_ratio, pyDivQ]

/-- C1 witness: the empty inventory. -/
theorem claim_C1_witness :
    totalSize ([] : List FileEntry) = 0 ∧
      (samplingPoints CHUNKSIZE (sample_size_of (1 / 10)).toNat
          (totalSize ([] : List FileEntry)) = [] ∧
        (zs_run false (1 / 10) (fun _ => 20) []).sample = [] ∧
        (zs_run false (1 / 10) (fun _ => 20) []).estimate = some 0 ∧
        (zs_run false (1 / 10) (fun _ => 20) []).ratio_rep = none) :=
  ⟨rfl, claim_C1_zero_total false (1 / 10) (fun _ => 20) [] rfl⟩

/-- C4: with a positive original size, a non-empty sample, and the (always
positive) compressed length, the reported estimate is
`(compressed_len / sample_len) * original_size` and the reported ratio is
`original_size / estimated_total`. -/
theorem claim_C4_extrapolation (c s o : ℕ) (hc : 0 < c) (hs : 0 < s)
    (ho : 0 < o) :
    estimated_size c s o = some (((c : ℚ) / (s : ℚ)) * (o : ℚ)) ∧
      (estimated_size c s o).bind (fun e => compression_ratio o e)
        = some ((o : ℚ) / (((c : ℚ) / (s : ℚ)) * (o : ℚ))) := by
  have hsq : ((s : ℚ)) ≠ 0 := Nat.cast_ne_zero.2 (by omega)
  have hcq : ((c : ℚ)) ≠ 0 := Nat.cast_ne_zero.2 (by omega)
  have hoq : ((o : ℚ)) ≠ 0 := Nat.cast_ne_zero.2 (by omega)
  have hest : estimated_size c s o = some (((c : ℚ) / (s : ℚ)) * (o : ℚ)) := by
    simp [estimated_size, pyDivQ, ho, hsq]
  refine ⟨hest, ?_⟩
  rw [hest]
  have hne : ((c : ℚ) / (s : ℚ)) * (o : ℚ) ≠ 0 :=
    mul_ne_zero (div_ne_zero hcq hsq) hoq
  simp [compression_ratio, pyDivQ, hne]

/-- C4 witness: `sample_len = 1000`, `compressed_len = 250`,
`original_size = 100000` give an estimate of 25000 and a ratio of 4. -/
theorem claim_C4_witness :
    (0 : ℕ) < 250 ∧ (0 : ℕ) < 1000 ∧ (0 : ℕ) < 100000 ∧
      estimated_size 250 1000 100000 = some 25000 ∧
      (estimated_size 250 1000 100000).bind
        (fun e => compression_ratio 100000 e) = some 4 := by
  have h := claim_C4_extrapolation 250 1000 100000 (by norm_num) (by norm_num)
    (by norm_num)
  refine ⟨by norm_num, by norm_num, by norm_num, ?_, ?_⟩
  · rw [h.1]; norm_num
  · rw [h.2]; norm_num

/-- C5 counterexample: the sampling ratio `3 / 4194304` (a number exactly
representable as a binary float, whose product with `CHUNKSIZE` is exactly
7.5) is accepted by validation, and the code's
`int(sampling_ratio * CHUNKSIZE)` truncates it to 7, while rounding to the
nearest integer gives 8.  The claim's equation is therefore false. -/
theorem claim_C5_counterexample :
    (0 : ℚ) < 3 / 4194304 ∧ (3 / 4194304 : ℚ) ≤ 1 ∧
      sample_size_of (3 / 4194304) = 7 ∧
      round ((3 / 4194304 : ℚ) * (CHUNKSIZE : ℚ)) = 8 ∧
      sample_size_of (3 / 4194304)
        ≠ round ((3 / 4194304 : ℚ) * (CHUNKSIZE : ℚ)) := by
  have hprod : (3 / 4194304 : ℚ) * (CHUNKSIZE : ℚ) = 15 / 2 := by
    norm_num [CHUNKSIZE]
  have hfl : sample_size_of (3 / 4194304) = 7 := by
    unfold sample_size_of pyInt
    rw [hprod, if_pos (by norm_num : (0 : ℚ) ≤ 15 / 2)]
    rw [Int.floor_eq_iff]
    norm_num
  have hrd : round ((3 / 4194304 : ℚ) * (CHUNKSIZE : ℚ)) = 8 := by
    rw [hprod, round_eq]
    have h8 : (15 / 2 : ℚ) + 1 / 2 = 8 := by norm_num
    rw [h8, Int.floor_eq_iff]
    norm_num
  refine ⟨by norm_num, by norm_num, hfl, hrd, ?_⟩
  rw [hfl, hrd]
  decide

/-- C5 amended: for every validated sampling ratio (in `(0, 1]`) the sampler
uses `sample_size = ⌊sampling_ratio * CHUNKSIZE⌋` — `int()` truncation toward
zero, which on these positive products is the floor, not rounding to the
nearest integer — with `CHUNKSIZE = 10 * 1024 * 1024`. -/
theorem claim_C5_amended (r : ℚ) (hr0 : 0 < r) (_hr1 : r ≤ 1) :
    sample_size_of r = ⌊r * (CHUNKSIZE : ℚ)⌋ ∧ CHUNKSIZE = 10 * 1024 * 1024 := by
  constructor
  · unfold sample_size_of pyInt
    have hnn : (0 : ℚ) ≤ r * (CHUNKSIZE : ℚ) := by
      have : (0 : ℚ) ≤ (CHUNKSIZE : ℚ) := by norm_num [CHUNKSIZE]
      exact mul_nonneg (le_of_lt hr0) this
    rw [if_pos hnn]
  · rfl

/-- C5 amended witness: at the default ratio `1/10` the floor evaluates to
`1048576` bytes. -/
theorem claim_C5_amended_witness :
    (0 : ℚ) < 1 / 10 ∧ (1 / 10 : ℚ) ≤ 1 ∧
      sample_size_of (1 / 10) = ⌊(1 / 10 : ℚ) * (CHUNKSIZE : ℚ)⌋ ∧
      sample_size_of (1 / 10) = 1048576 := by
  have h := claim_C5_amended (1 / 10) (by norm_num) (by norm_num)
  exact ⟨by norm_num, by norm_num, h.1, sample_size_of_default⟩

/-- C6: the sample buffer is at most `sample_size` times the number of
sampling points long, and every individual window contributes at most
`sample_size` bytes. -/
theorem claim_C6_buffer_bound (files : List FileEntry) (chunk sampleSz : ℕ) :
    (sample_data files chunk sampleSz).length
        ≤ sampleSz * (samplingPoints chunk sampleSz (totalSize files)).length ∧
      ∀ r ∈ sample_recs files chunk sampleSz, r.bytes.length ≤ sampleSz := by
  constructor
  · unfold sample_data
    rw [List.length_flatten, List.map_map]
    have hle := list_sum_le sampleSz
      ((sample_recs files chunk sampleSz).map (fun r => r.bytes.length))
      (by
        intro x hx
        rcases List.mem_map.1 hx with ⟨r, hr, rfl⟩
        exact sampleWalk_bytes_le sampleSz files _ 0 0 r hr)
    have hcount := sampleWalk_count sampleSz files
      (samplingPoints chunk sampleSz (totalSize files)) 0 0
    have hlen : (sample_recs files chunk sampleSz).length
        ≤ (samplingPoints chunk sampleSz (totalSize files)).length := by
      unfold sample_recs
      omega
    calc (((sample_recs files chunk sampleSz).map (fun r => r.bytes.length)).sum)
        ≤ sampleSz * (sample_recs files chunk sampleSz).length := by
          simpa using hle
    _ ≤ sampleSz * (samplingPoints chunk sampleSz (totalSize files)).length :=
          Nat.mul_le_mul_left _ hlen
  · exact fun r hr => sampleWalk_bytes_le sampleSz files _ 0 0 r hr

/-- C7: for every file of the inventory, the bytes read for the windows
assigned to that file sum to at most the file's own size. -/
theorem claim_C7_per_file_reads (files : List FileEntry) (chunk sampleSz : ℕ)
    (hc : 0 < chunk) (hs : sampleSz ≤ chunk) :
    ∀ j, (((sample_recs files chunk sampleSz).filter (fun r => r.idx = j)).map
        (fun r => r.bytes.length)).sum ≤ sizeAt files j := by
  intro j
  have h := sampleWalk_read_sum sampleSz chunk hs hc files
    (samplingPoints chunk sampleSz (totalSize files)) 0 0
    (pyRange_pairwise _ _ _) (fun x _ => Nat.zero_le x) j
  simpa using h

/-- C7 witness: one three-byte file, `chunk = 2`, `sample_size = 1`. -/
theorem claim_C7_witness :
    (0 : ℕ) < 2 ∧ (1 : ℕ) ≤ 2 ∧
      ∀ j, (((sample_recs [⟨[5, 6, 7], false⟩] 2 1).filter
          (fun r => r.idx = j)).map (fun r => r.bytes.length)).sum
        ≤ sizeAt [⟨[5, 6, 7], false⟩] j :=
  ⟨by decide, by decide,
    claim_C7_per_file_reads [⟨[5, 6, 7], false⟩] 2 1 (by decide) (by decide)⟩

/-- C8: `--verbose` changes only the diagnostic lines; the sample buffer,
compressed length, estimate and ratio of a run are identical with and
without it. -/
theorem claim_C8_verbose_noninterference (r : ℚ) (compress : List ℕ → ℕ)
    (files : List FileEntry) :
    (zs_run true r compress files).sample = (zs_run false r compress files).sample ∧
    (zs_run true r compress files).clen = (zs_run false r compress files).clen ∧
    (zs_run true r compress files).estimate = (zs_run false r compress files).estimate ∧
    (zs_run true r compress files).ratio_rep = (zs_run false r compress files).ratio_rep :=
  ⟨rfl, rfl, rfl, rfl⟩

/-- C9: a non-empty inventory whose total size is at most
`chunk_size - sample_size` yields no sampling points and an empty sample
while `original_size > 0`, so Step 4's division by `len(sampled_data)` is a
division by zero — the run raises an uncaught `ZeroDivisionError`
(modelled by `estimated_size ... = none`). -/
theorem claim_C9_small_tree_divzero (files : List FileEntry)
    (chunk sampleSz clen : ℕ) (hpos : 0 < totalSize files)
    (hsmall : totalSize files ≤ chunk - sampleSz) :
    samplingPoints chunk sampleSz (totalSize files) = [] ∧
      sample_data files chunk sampleSz = [] ∧
      estimated_size clen (sample_data files chunk sampleSz).length
        (totalSize files) = none := by
  have hpts : samplingPoints chunk sampleSz (totalSize files) = [] :=
    pyRange_eq_nil hsmall
  have hrecs : sample_recs files chunk sampleSz = [] := by
    unfold sample_recs
    rw [hpts]
    have hcount := sampleWalk_count sampleSz files [] 0 0
    simp only [List.length_nil, Nat.le_zero] at hcount
    exact List.length_eq_zero.1 (by omega)
  have hbuf : sample_data files chunk sampleSz = [] := by
    unfold sample_data
    rw [hrecs]
    rfl
  refine ⟨hpts, hbuf, ?_⟩
  rw [hbuf]
  simp [estimated_size, pyDivQ, hpos]

/-- C9 witness: one one-byte file with `chunk = 3`, `sample_size = 1`. -/
theorem claim_C9_witness :
    0 < totalSize [⟨[7], false⟩] ∧ totalSize [⟨[7], false⟩] ≤ 3 - 1 ∧
      (samplingPoints 3 1 (totalSize [⟨[7], false⟩]) = [] ∧
        sample_data [⟨[7], false⟩] 3 1 = [] ∧
        estimated_size 20 (sample_data [⟨[7], false⟩] 3 1).length
          (totalSize [⟨[7], false⟩]) = none) :=
  ⟨by decide, by decide,
    claim_C9_small_tree_divzero [⟨[7], false⟩] 3 1 20 (by decide) (by decide)⟩

/-- C10: on an error-free inventory, `sample_data` of
`estimate-compression.py` with its default parameters returns the same byte
buffer as `sample_data` of `zip-sizer.py` with `sampling_ratio = 0.1`
(where `int(0.1 * CHUNKSIZE) = 1048576`, also the value the IEEE-754 double
0.1 produces). -/
theorem claim_C10_equivalence (datas : List (List ℕ)) :
    ec_sample_data datas (10 * 1024 * 1024) (1 * 1024 * 1024)
      = sample_data (datas.map (fun d => ⟨d, false⟩)) CHUNKSIZE
          (sample_size_of (1 / 10)).toNat := by
  have hss : (sample_size_of (1 / 10)).toNat = 1 * 1024 * 1024 := by
    rw [sample_size_of_default]
    rfl
  rw [hss]
  have htot : (datas.map List.length).sum
      = totalSize (datas.map (fun d => ⟨d, false⟩)) := by
    unfold totalSize
    rw [List.map_map]
    rfl
  unfold ec_sample_data sample_data sample_recs samplingPoints
  rw [htot]
  have hch : (10 : ℕ) * 1024 * 1024 = CHUNKSIZE := rfl
  rw [hch]
  exact ecWalk_eq (1 * 1024 * 1024) datas _ 0 0

/-- C2: concrete run showing the offset-bookkeeping claim fails on the code.
Inventory: two 10 MiB files, default `chunk = 10485760`, `sample = 1048576`;
opening the first file raises a recoverable error.  Because
`current_offset += filesize` sits inside the `try` block (line 92), the
handler's `continue` skips it: the walk then treats the second file as if it
started at virtual offset 0 — it consumes sampling point 9437184 with
`fileStart = 0` and reads its bytes at relative offset 9437184, and the
second sampling point 19922944 is never consumed.  The error-free run
(second half) consumes both points, with the second file at its true start
offset 10485760. -/
theorem claim_C2_offset_shift :
    (sample_recs [⟨List.replicate 10485760 0, true⟩,
          ⟨List.replicate 10485760 1, false⟩] 10485760 1048576
        = [⟨1, 9437184, 0, 10485760, List.replicate 1048576 1⟩] ∧
      sample_leftover [⟨List.replicate 10485760 0, true⟩,
          ⟨List.replicate 10485760 1, false⟩] 10485760 1048576
        = [19922944]) ∧
    (sample_recs [⟨List.replicate 10485760 0, false⟩,
          ⟨List.replicate 10485760 1, false⟩] 10485760 1048576
        = [⟨0, 9437184, 0, 10485760, List.replicate 1048576 0⟩,
           ⟨1, 19922944, 10485760, 10485760, List.replicate 1048576 1⟩] ∧
      sample_leftover [⟨List.replicate 10485760 0, false⟩,
          ⟨List.replicate 10485760 1, false⟩] 10485760 1048576
        = []) := by
  have htotE : totalSize [⟨List.replicate 10485760 0, true⟩,
      ⟨List.replicate 10485760 1, false⟩] = 20971520 := by
    unfold totalSize
    simp only [List.map_cons, List.map_nil, List.sum_cons, List.sum_nil,
      List.length_replicate]
    norm_num
  have htotF : totalSize [⟨List.replicate 10485760 0, false⟩,
      ⟨List.replicate 10485760 1, false⟩] = 20971520 := by
    unfold totalSize
    simp only [List.map_cons, List.map_nil, List.sum_cons, List.sum_nil,
      List.length_replicate]
    norm_num
  have hptsE : samplingPoints 10485760 1048576 (totalSize
      [⟨List.replicate 10485760 0, true⟩, ⟨List.replicate 10485760 1, false⟩])
      = [9437184, 19922944] := by
    rw [htotE]; decide
  have hptsF : samplingPoints 10485760 1048576 (totalSize
      [⟨List.replicate 10485760 0, false⟩, ⟨List.replicate 10485760 1, false⟩])
      = [9437184, 19922944] := by
    rw [htotF]; decide
  have hwalkE : sampleWalk 1048576
      [⟨List.replicate 10485760 0, true⟩, ⟨List.replicate 10485760 1, false⟩]
      [9437184, 19922944] 0 0
      = ([⟨1, 9437184, 0, 10485760, List.replicate 1048576 1⟩], [19922944]) := by
    rw [sampleWalk_mk_err (by simp only [List.length_replicate]; norm_num)]
    rw [sampleWalk_mk_open (by simp only [List.length_replicate]; norm_num)]
    rw [fileWindows_cons_take (by simp only [List.length_replicate]; norm_num)]
    rw [fileWindows_cons_stop (by simp only [List.length_replicate]; norm_num)]
    rw [sampleWalk_nil]
    simp only [List.map_cons, List.map_nil, List.drop_replicate,
      List.take_replicate, List.length_replicate]
    norm_num
  have hwalkF : sampleWalk 1048576
      [⟨List.replicate 10485760 0, false⟩, ⟨List.replicate 10485760 1, false⟩]
      [9437184, 19922944] 0 0
      = ([⟨0, 9437184, 0, 10485760, List.replicate 1048576 0⟩,
          ⟨1, 19922944, 10485760, 10485760, List.replicate 1048576 1⟩], []) := by
    rw [sampleWalk_mk_open (by simp only [List.length_replicate]; norm_num)]
    rw [fileWindows_cons_take (by simp only [List.length_replicate]; norm_num)]
    rw [fileWindows_cons_stop (by simp only [List.length_replicate]; norm_num)]
    rw [sampleWalk_mk_open (by simp only [List.length_replicate]; norm_num)]
    rw [fileWindows_cons_take (by simp only [List.length_replicate]; norm_num)]
    rw [fileWindows_nil, sampleWalk_nil]
    simp only [List.map_cons, List.map_nil, List.drop_replicate,
      List.take_replicate, List.length_replicate]
    norm_num
  refine ⟨⟨?_, ?_⟩, ?_, ?_⟩
  · rw [sample_recs_def, hptsE, hwalkE]
  · rw [sample_leftover_def, hptsE, hwalkE]
  · rw [sample_recs_def, hptsF, hwalkF]
  · rw [sample_leftover_def, hptsF, hwalkF]

/-- C3: in every error-free run the consumed sampling points, in consumption
order, are exactly the (strictly increasing) sampling-point sequence and each
is consumed by exactly one file — the one whose true virtual range
`[prefixSize, prefixSize + size)` contains it; and on the synthetic inventory
of three 4 MiB files with `chunk = 10 MiB`, `sample = 1 MiB` there is exactly
one sampling point, 9437184 (= 9 MiB), consumed by the third file
(`idx = 2`, starting at 8388608, so relative offset 1048576 = 1 MiB), and
the resulting sample buffer is 1048576 bytes long. -/
theorem claim_C3_points_partition :
    (∀ (files : List FileEntry) (chunk sampleSz : ℕ), 0 < chunk →
      (∀ f ∈ files, f.err = false) →
      ((sample_recs files chunk sampleSz).map (fun r => r.point)
          = samplingPoints chunk sampleSz (totalSize files) ∧
        ((sample_recs files chunk sampleSz).map (fun r => r.point)).Pairwise (· < ·) ∧
        ∀ r ∈ sample_recs files chunk sampleSz,
          r.fileStart ≤ r.point ∧ r.point < r.fileStart + r.fileLen ∧
            r.fileStart = prefixSize files r.idx ∧ r.fileLen = sizeAt files r.idx)) ∧
    (sample_recs [⟨List.replicate 4194304 0, false⟩, ⟨List.replicate 4194304 0, false⟩,
          ⟨List.replicate 4194304 0, false⟩] 10485760 1048576
        = [⟨2, 9437184, 8388608, 4194304, List.replicate 1048576 0⟩] ∧
      (sample_data [⟨List.replicate 4194304 0, false⟩, ⟨List.replicate 4194304 0, false⟩,
          ⟨List.replicate 4194304 0, false⟩] 10485760 1048576).length = 1048576) := by
  constructor
  · intro files chunk sampleSz hc herr
    have hstep := pyRange_pairwise (chunk - sampleSz) (totalSize files) chunk
    have hsort : (samplingPoints chunk sampleSz (totalSize files)).Pairwise (· < ·) :=
      hstep.imp (fun h => by omega)
    have hmap := sampleWalk_map_point sampleSz files
      (samplingPoints chunk sampleSz (totalSize files)) 0 0 herr hsort
      (fun x _ => Nat.zero_le x)
      (fun x hx => by have := pyRange_mem_lt hc hx; omega)
    refine ⟨hmap, hmap ▸ hsort, fun r hr => ?_⟩
    have hb := sampleWalk_rec_bounds sampleSz files
      (samplingPoints chunk sampleSz (totalSize files)) 0 0 hsort
      (fun x _ => Nat.zero_le x) r hr
    have hl := sampleWalk_rec_loc sampleSz files
      (samplingPoints chunk sampleSz (totalSize files)) 0 0 herr r hr
    have hidx0 : r.idx - 0 = r.idx := Nat.sub_zero _
    rw [hidx0] at hl
    exact ⟨hb.1, hb.2, by omega, hl.2⟩
  · have htot : totalSize [⟨List.replicate 4194304 0, false⟩,
        ⟨List.replicate 4194304 0, false⟩, ⟨List.replicate 4194304 0, false⟩]
        = 12582912 := by
      unfold totalSize
      simp only [List.map_cons, List.map_nil, List.sum_cons, List.sum_nil,
        List.length_replicate]
      norm_num
    have hpts : samplingPoints 10485760 1048576 (totalSize
        [⟨List.replicate 4194304 0, false⟩, ⟨List.replicate 4194304 0, false⟩,
          ⟨List.replicate 4194304 0, false⟩]) = [9437184] := by
      rw [htot]; decide
    have hwalk : sampleWalk 1048576
        [⟨List.replicate 4194304 0, false⟩, ⟨List.replicate 4194304 0, false⟩,
          ⟨List.replicate 4194304 0, false⟩] [9437184] 0 0
        = ([⟨2, 9437184, 8388608, 4194304, List.replicate 1048576 0⟩], []) := by
      rw [sampleWalk_mk_skip (by simp only [List.length_replicate]; norm_num)]
      rw [sampleWalk_mk_skip (by simp only [List.length_replicate]; norm_num)]
      rw [sampleWalk_mk_open (by simp only [List.length_replicate]; norm_num)]
      rw [fileWindows_cons_take (by simp only [List.length_replicate]; norm_num)]
      rw [fileWindows_nil, sampleWalk_nil]
      simp only [List.map_cons, List.map_nil, List.drop_replicate,
        List.take_replicate, List.length_replicate]
      norm_num
    have hrecs : sample_recs [⟨List.replicate 4194304 0, false⟩,
        ⟨List.replicate 4194304 0, false⟩, ⟨List.replicate 4194304 0, false⟩]
        10485760 1048576
        = [⟨2, 9437184, 8388608, 4194304, List.replicate 1048576 0⟩] := by
      rw [sample_recs_def, hpts, hwalk]
    refine ⟨hrecs, ?_⟩
    rw [sample_data_def, hrecs]
    simp only [List.map_cons, List.map_nil, List.flatten_cons, List.flatten_nil,
      List.append_nil, List.length_replicate]

/-- C3 witness: a single two-byte file with `chunk = 2`, `sample = 1`. -/
theorem claim_C3_witness :
    (0 : ℕ) < 2 ∧ (∀ f ∈ [(⟨[5, 6], false⟩ : FileEntry)], f.err = false) ∧
      ((sample_recs [⟨[5, 6], false⟩] 2 1).map (fun r => r.point)
          = samplingPoints 2 1 (totalSize [⟨[5, 6], false⟩]) ∧
        ((sample_recs [⟨[5, 6], false⟩] 2 1).map (fun r => r.point)).Pairwise (· < ·) ∧
        ∀ r ∈ sample_recs [⟨[5, 6], false⟩] 2 1,
          r.fileStart ≤ r.point ∧ r.point < r.fileStart + r.fileLen ∧
            r.fileStart = prefixSize [⟨[5, 6], false⟩] r.idx ∧
            r.fileLen = sizeAt [⟨[5, 6], false⟩] r.idx) :=
  ⟨by decide, by decide,
    claim_C3_points_partition.1 [⟨[5, 6], false⟩] 2 1 (by decide) (by decide)⟩

end ZipSizer
